import Mathlib

/-!
Shallow embedding of `python_file_formatter.py`.

The comment-removal step of `format_file` is
  `comment_filter = pyparsing.python_style_comment.suppress()`
  `comment_filter.ignore(any_python_quoted_string)`
  `code = comment_filter.transform_string(code)`
where `any_python_quoted_string` is the pyparsing `MatchFirst`
  `QuotedString('\"\"\"', multiline=True) | QuotedString(\"'''\", multiline=True)
   | QuotedString('\"') | QuotedString(\"'\")`.
The definitions below embed the pyparsing (3.0.9) semantics of these
combinators over `List Char`:
  * `python_style_comment` is `Regex(r"#.*")`: a `#` followed by the longest
    run of non-newline characters.
  * `QuotedString(q)` (no escape character is configured in the source!)
    compiles to the regex  `q (?:[^ q \n \r])* q`.
  * `QuotedString(qqq, multiline=True)` compiles to a regex that matches the
    opening triple quote up to and including the first following occurrence
    of the closing triple quote, newlines allowed inside.
  * `transform_string` repeatedly: skips ignorable expressions (the quoted
    strings) and whitespace (pyparsing `DEFAULT_WHITE_CHARS = " \n\t\r"`),
    tries the comment expression at the resulting position, deletes the
    matched comment text on success, and on failure advances one character;
    all non-comment text is copied to the output verbatim.
-/

/-- pyparsing `DEFAULT_WHITE_CHARS = " \n\t\r"`. -/
def isWhite (c : Char) : Bool :=
  c == ' ' || c == '\n' || c == '\t' || c == '\r'

/-- Whitespace skipping performed by `preParse` and by each ignore attempt. -/
def skipWSrest (cs : List Char) : List Char :=
  cs.dropWhile isWhite

/-- Character class of the body of a single-line `QuotedString(q)`:
the compiled regex is `q (?:[^ q \n\r])* q` (no escape character). -/
def singleBodyChar (q : Char) (c : Char) : Bool :=
  !(c == q || c == '\n' || c == '\r')

/-- `QuotedString(q)` (single-line, no escape char): matches an opening `q`,
a maximal run of characters other than `q`, `\n`, `\r`, then a closing `q`.
Returns the remainder of the input after the match. -/
def matchSingleQuoted (q : Char) : List Char → Option (List Char)
  | [] => none
  | c :: rest =>
    if c == q then
      match rest.dropWhile (singleBodyChar q) with
      | c2 :: rest2 => if c2 == q then some rest2 else none
      | [] => none
    else none

/-- Body scan of `QuotedString(qqq, multiline=True)` after the opening triple
quote: the compiled regex consumes up to and including the first following
occurrence of the closing triple quote (newlines allowed), and fails if there
is none. -/
def tripleBody (q : Char) : List Char → Option (List Char)
  | c0 :: c1 :: c2 :: rest =>
    if c0 == q && c1 == q && c2 == q then some rest
    else tripleBody q (c1 :: c2 :: rest)
  | _ => none

/-- `QuotedString(qqq, multiline=True)`: opening triple quote, then body up to
the first closing triple quote. -/
def matchTripleQuoted (q : Char) : List Char → Option (List Char)
  | c0 :: c1 :: c2 :: rest =>
    if c0 == q && c1 == q && c2 == q then tripleBody q rest else none
  | _ => none

/-- The source's `any_python_quoted_string`: a pyparsing `MatchFirst` trying,
in order, `QuotedString('\"\"\"', multiline=True)`,
`QuotedString(\"'''\", multiline=True)`, `QuotedString('\"')`,
`QuotedString(\"'\")`. -/
def any_python_quoted_string (cs : List Char) : Option (List Char) :=
  match matchTripleQuoted '"' cs with
  | some r => some r
  | none =>
    match matchTripleQuoted '\'' cs with
    | some r => some r
    | none =>
      match matchSingleQuoted '"' cs with
      | some r => some r
      | none => matchSingleQuoted '\'' cs

/-- pyparsing `_skipIgnorables`, fuelled (each successful ignore match consumes
at least two characters, so `cs.length` fuel always suffices): repeatedly skip
whitespace and match `any_python_quoted_string`; stop (keeping the position
before the last whitespace skip) as soon as the match fails. -/
def skipIgnorablesF : Nat → List Char → List Char
  | 0, cs => cs
  | fuel + 1, cs =>
    match any_python_quoted_string (skipWSrest cs) with
    | some rest => skipIgnorablesF fuel rest
    | none => cs

/-- pyparsing `_skipIgnorables` with sufficient fuel. -/
def skipIgnorables (cs : List Char) : List Char :=
  skipIgnorablesF cs.length cs

/-- pyparsing `preParse`: skip ignorable quoted strings, then whitespace. -/
def preParseRest (cs : List Char) : List Char :=
  skipWSrest (skipIgnorables cs)

/-- The source's `pyparsing.python_style_comment`, i.e. `Regex(r"#.*")`:
a `#` followed by the longest run of non-`'\n'` characters. Returns the
remainder after the match. -/
def python_style_comment : List Char → Option (List Char)
  | c :: rest =>
    if c == '#' then some (rest.dropWhile (fun c2 => !(c2 == '\n'))) else none
  | [] => none

/-- One pass of `transform_string` of the suppressed comment expression,
fuelled (every step consumes at least one character, so `cs.length` fuel
suffices). At each position: run `preParse`; text skipped by it is copied
verbatim to the output. If the comment matches at the resulting position its
text is deleted (the expression is suppressed) and scanning resumes after it;
otherwise one further character is copied and scanning resumes after it; at
end of input the remaining text is copied. -/
def tloopF : Nat → List Char → List Char
  | 0, _ => []
  | fuel + 1, cs =>
    match cs with
    | [] => []
    | _ :: _ =>
      let r := preParseRest cs
      let skipped := cs.take (cs.length - r.length)
      match python_style_comment r with
      | some r2 => skipped ++ tloopF fuel r2
      | none =>
        match r with
        | [] => skipped
        | c :: r2 => skipped ++ c :: tloopF fuel r2

/-- `transform_string` on a character list, with sufficient fuel. -/
def tloop (cs : List Char) : List Char :=
  tloopF cs.length cs

/-- The comment-removal step of `format_file`:
`comment_filter.transform_string(code)` for
`comment_filter = pyparsing.python_style_comment.suppress()` with
`comment_filter.ignore(any_python_quoted_string)`. -/
def transform_string (s : String) : String :=
  ⟨tloop s.data⟩

/-!  The surrounding `format_file` function and the `__main__` directory loop.
File-system reads, the text encoding and the external yapf `FormatCode` call
are abstracted into an environment: `content f` is what `open(f).read()`
returns, `isFile f` is `os.path.isfile(f)`, and `fmt code = some (code2, ch)`
models `FormatCode(code, style_config=...)` returning `(code2, ch)` (with
`none` for the exception yapf raises on syntactically invalid input). -/

structure Env where
  isFile : String → Bool
  content : String → String
  fmt : String → Option (String × Bool)

/-- The ways a `format_file` call can raise, by source site:
`invalidInput` is the `ValueError` of the initial path check, `formatError`
is an exception out of `FormatCode`, `osError` is an exception out of
`os.makedirs`. -/
inductive FFErr where
  | invalidInput
  | formatError
  | osError
  deriving DecidableEq, Repr

/-- `in_file.endswith(".py")`. -/
def endsWithPy (s : String) : Bool :=
  s.data.drop (s.data.length - 3) == ['.', 'p', 'y']

/-- Index one past the last `'/'` of the list, or `0` when there is none
(the `p.rfind(sep) + 1` of `posixpath.dirname`). -/
def rfindSlash : List Char → Nat
  | [] => 0
  | c :: rest =>
    let r := rfindSlash rest
    if r > 0 then r + 1 else if c == '/' then 1 else 0

/-- `os.path.dirname` (POSIX): everything before the last `'/'`, with
trailing slashes stripped unless the head is all slashes. -/
def dirname (s : String) : String :=
  let head := s.data.take (rfindSlash s.data)
  if !head.isEmpty && !(head.all (fun c => c == '/')) then
    ⟨(head.reverse.dropWhile (fun c => c == '/')).reverse⟩
  else ⟨head⟩

/-- Modelled from the semantics of `os.makedirs(path, exist_ok=True)` as the
source calls it: it raises `FileNotFoundError` when `path` is the empty
string and succeeds otherwise (with `exist_ok=True` an existing directory is
not an error; other OS-level failures are out of scope). -/
def makedirs_ok (p : String) : Bool :=
  !(p == "")

/-- The source's `format_file(in_file, out_file=None, encoding="utf-8",
remove_comments=False, style_config="facebook", out_file_suffix="_formatted")`:
  * raise `ValueError` unless `os.path.isfile(in_file)` and
    `in_file.endswith(".py")` (before any read or scan);
  * read the file, optionally run the comment filter over it;
  * run `FormatCode` (an exception propagates);
  * if `out_file` is `None`, derive it as `in_file[:-3] + out_file_suffix +
    ".py"`;
  * `os.makedirs(os.path.dirname(out_file), exist_ok=True)`, then write.
On success it returns the path written, the text written and the `changed`
flag (the Python function returns `changed`; the path and text stand for the
write side effect). The `encoding` and `style_config` arguments live inside
`Env.content` and `Env.fmt`. -/
def format_file (env : Env) (in_file : String) (out_file : Option String)
    (remove_comments : Bool) (out_file_suffix : String) :
    Except FFErr (String × String × Bool) :=
  if !(env.isFile in_file) || !(endsWithPy in_file) then
    .error .invalidInput
  else
    let code0 := env.content in_file
    let code1 := if remove_comments then transform_string code0 else code0
    match env.fmt code1 with
    | none => .error .formatError
    | some (code2, changed) =>
      let out := match out_file with
        | some o => o
        | none => (⟨in_file.data.take (in_file.data.length - 3)⟩ : String)
            ++ out_file_suffix ++ ".py"
      if makedirs_ok (dirname out) then .ok (out, code2, changed)
      else .error .osError

/-- The per-file output path the `__main__` directory branch passes:
`None if args.out_file is None else os.path.join(args.out_file,
file[len(common_path):])` (POSIX join of the output root and the file's path
relative to the common path). -/
def derivedOut (out_root : Option String) (common_len : Nat) (file : String) :
    Option String :=
  out_root.map (fun d => d ++ "/" ++ (⟨file.data.drop common_len⟩ : String))

/-- The `__main__` directory branch, `for file in files: format_file(...)`:
the calls run in list order and an exception from one call propagates out of
the loop uncaught, so processing stops at the first failing file. Returns
the input files successfully processed (their outputs written) and, if the
loop aborted, the failing file with its error. -/
def main_directory_loop (env : Env) (out_root : Option String)
    (common_len : Nat) (remove_comments : Bool) (out_file_suffix : String) :
    List String → List String × Option (String × FFErr)
  | [] => ([], none)
  | file :: rest =>
    match format_file env file (derivedOut out_root common_len file)
        remove_comments out_file_suffix with
    | .error e => ([], some (file, e))
    | .ok _ =>
      let done := main_directory_loop env out_root common_len
        remove_comments out_file_suffix rest
      (file :: done.1, done.2)

/-- A concrete environment exercising the batch loop: every path is a file,
`d/b.py` holds text the external formatter rejects, and the formatter accepts
everything else unchanged. -/
def envB : Env where
  isFile := fun _ => true
  content := fun f => if f == "d/b.py" then "BAD" else "ok"
  fmt := fun s => if s == "BAD" then none else some (s, true)

/-- A concrete environment in which every path is an existing file and the
external formatter accepts everything unchanged. -/
def envOk : Env where
  isFile := fun _ => true
  content := fun _ => ""
  fmt := fun s => some (s, false)

/-! Structural lemmas: every matcher returns a suffix of its input, with
bounds on how much it consumes. -/

theorem dropWhile_eq_drop (p : Char → Bool) (cs : List Char) :
    ∃ k, k ≤ cs.length ∧ cs.dropWhile p = cs.drop k := by
  induction cs with
  | nil => exact ⟨0, by simp⟩
  | cons c cs ih =>
    by_cases h : p c
    · obtain ⟨k, hk, he⟩ := ih
      exact ⟨k + 1, by simpa using hk, by simpa [List.dropWhile_cons, h] using he⟩
    · exact ⟨0, by simp, by simp [List.dropWhile_cons, h]⟩

theorem matchSingleQuoted_drop (q : Char) (cs r : List Char)
    (h : matchSingleQuoted q cs = some r) :
    ∃ k, 2 ≤ k ∧ k ≤ cs.length ∧ r = cs.drop k := by
  match cs with
  | [] => simp [matchSingleQuoted] at h
  | c :: rest =>
    rw [matchSingleQuoted] at h
    obtain ⟨k0, hk0, he⟩ := dropWhile_eq_drop (singleBodyChar q) rest
    split at h
    case isFalse => exact absurd h (by simp)
    case isTrue hc =>
      split at h
      case h_2 => exact absurd h (by simp)
      case h_1 c2 rest2 hd =>
        split at h
        case isFalse => exact absurd h (by simp)
        case isTrue hc2 =>
          have hr : r = rest2 := (Option.some.inj h).symm
          have hdk : rest.drop k0 = c2 :: rest2 := by rw [← he, hd]
          have hlt : k0 < rest.length := by
            by_contra hge
            have h0 : rest.drop k0 = [] := List.drop_eq_nil_of_le (le_of_not_lt hge)
            rw [h0] at hdk; exact absurd hdk (by simp)
          have h2 : rest2 = rest.drop (k0 + 1) := by
            have h1 : (rest.drop k0).drop 1 = rest2 := by rw [hdk]; rfl
            rw [List.drop_drop] at h1
            exact h1.symm
          refine ⟨k0 + 2, by omega, by simp only [List.length_cons]; omega, ?_⟩
          rw [hr, h2]
          show rest.drop (k0 + 1) = (c :: rest).drop (k0 + 2)
          rw [show k0 + 2 = (k0 + 1) + 1 by omega, List.drop_succ_cons]

theorem tripleBody_drop (q : Char) (cs r : List Char)
    (h : tripleBody q cs = some r) :
    ∃ k, 3 ≤ k ∧ k ≤ cs.length ∧ r = cs.drop k := by
  induction cs with
  | nil => simp [tripleBody] at h
  | cons c0 tail ih =>
    match tail, h with
    | c1 :: c2 :: rest, h =>
      rw [tripleBody] at h
      split at h
      case isTrue hq =>
        have hr : r = rest := (Option.some.inj h).symm
        refine ⟨3, le_rfl, by simp only [List.length_cons]; omega, ?_⟩
        rw [hr]; rfl
      case isFalse hq =>
        obtain ⟨k, hk3, hkl, hr⟩ := ih h
        refine ⟨k + 1, by omega, by simp only [List.length_cons] at *; omega, ?_⟩
        rw [hr, List.drop_succ_cons]
    | [], h => simp [tripleBody] at h
    | [c1], h => simp [tripleBody] at h

theorem matchTripleQuoted_drop (q : Char) (cs r : List Char)
    (h : matchTripleQuoted q cs = some r) :
    ∃ k, 2 ≤ k ∧ k ≤ cs.length ∧ r = cs.drop k := by
  match cs, h with
  | c0 :: c1 :: c2 :: rest, h =>
    rw [matchTripleQuoted] at h
    split at h
    case isFalse => exact absurd h (by simp)
    case isTrue hq =>
      obtain ⟨k, hk3, hkl, hr⟩ := tripleBody_drop q rest r h
      refine ⟨k + 3, by omega, by simp only [List.length_cons] at *; omega, ?_⟩
      have h3 : (c0 :: c1 :: c2 :: rest).drop (k + 3) = rest.drop k := by
        rw [show k + 3 = (k + 2) + 1 by omega, List.drop_succ_cons,
          show k + 2 = (k + 1) + 1 by omega, List.drop_succ_cons, List.drop_succ_cons]
      rw [hr, h3]
  | [], h => simp [matchTripleQuoted] at h
  | [c0], h => simp [matchTripleQuoted] at h
  | [c0, c1], h => simp [matchTripleQuoted] at h

theorem any_python_quoted_string_drop (cs r : List Char)
    (h : any_python_quoted_string cs = some r) :
    ∃ k, 2 ≤ k ∧ k ≤ cs.length ∧ r = cs.drop k := by
  unfold any_python_quoted_string at h
  split at h
  case h_1 v h1 => exact matchTripleQuoted_drop _ _ _ ((Option.some.inj h) ▸ h1)
  case h_2 h1 =>
    split at h
    case h_1 v h2 => exact matchTripleQuoted_drop _ _ _ ((Option.some.inj h) ▸ h2)
    case h_2 h2 =>
      split at h
      case h_1 v h3 => exact matchSingleQuoted_drop _ _ _ ((Option.some.inj h) ▸ h3)
      case h_2 h3 => exact matchSingleQuoted_drop _ _ _ h

theorem skipWSrest_drop (cs : List Char) :
    ∃ a, a ≤ cs.length ∧ skipWSrest cs = cs.drop a :=
  dropWhile_eq_drop isWhite cs

theorem skipIgnorablesF_nil (f : Nat) : skipIgnorablesF f [] = [] := by
  cases f with
  | zero => rfl
  | succ f => rfl

theorem skipIgnorablesF_succ_some (f : Nat) (cs rest : List Char)
    (hm : any_python_quoted_string (skipWSrest cs) = some rest) :
    skipIgnorablesF (f + 1) cs = skipIgnorablesF f rest := by
  have e1 : skipIgnorablesF (f + 1) cs
      = match any_python_quoted_string (skipWSrest cs) with
        | some rest => skipIgnorablesF f rest
        | none => cs := rfl
  rw [e1, hm]

theorem skipIgnorablesF_succ_none (f : Nat) (cs : List Char)
    (hm : any_python_quoted_string (skipWSrest cs) = none) :
    skipIgnorablesF (f + 1) cs = cs := by
  have e1 : skipIgnorablesF (f + 1) cs
      = match any_python_quoted_string (skipWSrest cs) with
        | some rest => skipIgnorablesF f rest
        | none => cs := rfl
  rw [e1, hm]

theorem skipIgnorablesF_congr : ∀ f1 f2 : Nat, ∀ cs : List Char,
    cs.length ≤ 2 * f1 → cs.length ≤ 2 * f2 →
    skipIgnorablesF f1 cs = skipIgnorablesF f2 cs := by
  intro f1
  induction f1 with
  | zero =>
    intro f2 cs h1 h2
    have he : cs = [] := List.eq_nil_of_length_eq_zero (by omega)
    subst he
    rw [skipIgnorablesF_nil, skipIgnorablesF_nil]
  | succ f1 ih =>
    intro f2 cs h1 h2
    cases f2 with
    | zero =>
      have he : cs = [] := List.eq_nil_of_length_eq_zero (by omega)
      subst he
      rw [skipIgnorablesF_nil, skipIgnorablesF_nil]
    | succ g =>
      cases hm : any_python_quoted_string (skipWSrest cs) with
      | none => rw [skipIgnorablesF_succ_none _ _ hm, skipIgnorablesF_succ_none _ _ hm]
      | some rest =>
        rw [skipIgnorablesF_succ_some _ _ _ hm, skipIgnorablesF_succ_some _ _ _ hm]
        obtain ⟨a, ha, hwe⟩ := skipWSrest_drop cs
        obtain ⟨k, hk2, hkl, hr⟩ := any_python_quoted_string_drop _ _ hm
        have hsl : (skipWSrest cs).length = cs.length - a := by
          rw [hwe, List.length_drop]
        have hrl : rest.length = (skipWSrest cs).length - k := by
          rw [hr, List.length_drop]
        exact ih g rest (by omega) (by omega)

theorem skipIgnorables_step (cs rest : List Char) (hws : skipWSrest cs = cs)
    (h : any_python_quoted_string cs = some rest) :
    skipIgnorables cs = skipIgnorables rest := by
  obtain ⟨k, hk2, hkl, hr⟩ := any_python_quoted_string_drop _ _ h
  have hrl : rest.length = cs.length - k := by rw [hr, List.length_drop]
  cases hn : cs.length with
  | zero => rw [hn] at hkl; omega
  | succ n =>
    unfold skipIgnorables
    rw [hn, skipIgnorablesF_succ_some n cs rest (by rw [hws]; exact h)]
    exact skipIgnorablesF_congr n rest.length rest (by omega) (by omega)

theorem skipIgnorables_of_none (cs : List Char)
    (h : any_python_quoted_string (skipWSrest cs) = none) :
    skipIgnorables cs = cs := by
  unfold skipIgnorables
  cases hn : cs.length with
  | zero =>
    have he : cs = [] := List.eq_nil_of_length_eq_zero hn
    subst he; rfl
  | succ n => rw [skipIgnorablesF_succ_none n cs h]

theorem skipIgnorables_drop (cs : List Char) :
    ∃ k, skipIgnorables cs = cs.drop k := by
  unfold skipIgnorables
  generalize cs.length = f
  induction f generalizing cs with
  | zero => exact ⟨0, rfl⟩
  | succ f ih =>
    cases hm : any_python_quoted_string (skipWSrest cs) with
    | none => exact ⟨0, skipIgnorablesF_succ_none f cs hm⟩
    | some rest =>
      rw [skipIgnorablesF_succ_some f cs rest hm]
      obtain ⟨a, ha, hwe⟩ := skipWSrest_drop cs
      obtain ⟨k, hk2, hkl, hr⟩ := any_python_quoted_string_drop _ _ hm
      obtain ⟨j, hje⟩ := ih rest
      refine ⟨j + (k + a), ?_⟩
      rw [hje, hr, hwe, List.drop_drop, List.drop_drop]
      congr 1
      omega

theorem preParseRest_drop (cs : List Char) :
    ∃ k, preParseRest cs = cs.drop k := by
  obtain ⟨k1, h1⟩ := skipIgnorables_drop cs
  obtain ⟨k2, hk2, h2⟩ := skipWSrest_drop (skipIgnorables cs)
  refine ⟨k2 + k1, ?_⟩
  unfold preParseRest
  rw [h2, h1, List.drop_drop]
  congr 1
  omega

theorem python_style_comment_drop (r r2 : List Char)
    (h : python_style_comment r = some r2) :
    ∃ k, 1 ≤ k ∧ r2 = r.drop k := by
  match r with
  | [] => simp [python_style_comment] at h
  | c :: rest =>
    rw [python_style_comment] at h
    split at h
    case isFalse => exact absurd h (by simp)
    case isTrue hc =>
      obtain ⟨k0, hk0, he⟩ := dropWhile_eq_drop (fun c2 => !(c2 == '\n')) rest
      have hr2 : r2 = rest.drop k0 := by rw [← he]; exact (Option.some.inj h).symm
      exact ⟨k0 + 1, by omega, by rw [hr2, List.drop_succ_cons]⟩

theorem tloopF_nilinput (f : Nat) : tloopF f [] = [] := by
  cases f with
  | zero => rfl
  | succ f => rfl

theorem tloopF_comment (f : Nat) (cs r2 : List Char) (hne : cs ≠ [])
    (h : python_style_comment (preParseRest cs) = some r2) :
    tloopF (f + 1) cs
      = cs.take (cs.length - (preParseRest cs).length) ++ tloopF f r2 := by
  match cs, hne with
  | c :: cs, _ =>
    have e1 : tloopF (f + 1) (c :: cs)
        = match python_style_comment (preParseRest (c :: cs)) with
          | some r2 => (c :: cs).take
              ((c :: cs).length - (preParseRest (c :: cs)).length) ++ tloopF f r2
          | none =>
            match preParseRest (c :: cs) with
            | [] => (c :: cs).take
                ((c :: cs).length - (preParseRest (c :: cs)).length)
            | c2 :: r2 => (c :: cs).take
                ((c :: cs).length - (preParseRest (c :: cs)).length)
                ++ c2 :: tloopF f r2 := rfl
    rw [e1, h]

theorem tloopF_nilrest (f : Nat) (cs : List Char)
    (h : preParseRest cs = []) :
    tloopF (f + 1) cs = cs := by
  match cs with
  | [] => rw [tloopF_nilinput]
  | c :: cs =>
    have e1 : tloopF (f + 1) (c :: cs)
        = match python_style_comment (preParseRest (c :: cs)) with
          | some r2 => (c :: cs).take
              ((c :: cs).length - (preParseRest (c :: cs)).length) ++ tloopF f r2
          | none =>
            match preParseRest (c :: cs) with
            | [] => (c :: cs).take
                ((c :: cs).length - (preParseRest (c :: cs)).length)
            | c2 :: r2 => (c :: cs).take
                ((c :: cs).length - (preParseRest (c :: cs)).length)
                ++ c2 :: tloopF f r2 := rfl
    rw [e1, h]
    show (c :: cs).take ((c :: cs).length - ([] : List Char).length) = c :: cs
    rw [List.length_nil, Nat.sub_zero, List.take_length]

theorem tloopF_nocomment (f : Nat) (cs : List Char) (c2 : Char) (r2 : List Char)
    (h : preParseRest cs = c2 :: r2)
    (hcm : python_style_comment (c2 :: r2) = none) :
    tloopF (f + 1) cs
      = cs.take (cs.length - (c2 :: r2).length) ++ c2 :: tloopF f r2 := by
  match cs with
  | [] =>
    have : preParseRest [] = [] := rfl
    rw [this] at h
    exact absurd h (by simp)
  | c :: cs =>
    have e1 : tloopF (f + 1) (c :: cs)
        = match python_style_comment (preParseRest (c :: cs)) with
          | some r2 => (c :: cs).take
              ((c :: cs).length - (preParseRest (c :: cs)).length) ++ tloopF f r2
          | none =>
            match preParseRest (c :: cs) with
            | [] => (c :: cs).take
                ((c :: cs).length - (preParseRest (c :: cs)).length)
            | c2 :: r2 => (c :: cs).take
                ((c :: cs).length - (preParseRest (c :: cs)).length)
                ++ c2 :: tloopF f r2 := rfl
    rw [e1, h, hcm]

theorem tloopF_congr : ∀ f1 f2 : Nat, ∀ cs : List Char,
    cs.length ≤ f1 → cs.length ≤ f2 → tloopF f1 cs = tloopF f2 cs := by
  intro f1
  induction f1 with
  | zero =>
    intro f2 cs h1 h2
    have he : cs = [] := List.eq_nil_of_length_eq_zero (by omega)
    subst he
    rw [tloopF_nilinput, tloopF_nilinput]
  | succ f1 ih =>
    intro f2 cs h1 h2
    match cs, h1, h2 with
    | [], _, _ => rw [tloopF_nilinput, tloopF_nilinput]
    | c :: cs', h1, h2 =>
      cases f2 with
      | zero => simp at h2
      | succ g =>
        obtain ⟨k, hpp⟩ := preParseRest_drop (c :: cs')
        cases hcm : python_style_comment (preParseRest (c :: cs')) with
        | some r2 =>
          rw [tloopF_comment f1 _ r2 (by simp) hcm, tloopF_comment g _ r2 (by simp) hcm]
          obtain ⟨j, hj, hr2⟩ := python_style_comment_drop _ _ hcm
          have hl : r2.length = ((c :: cs').length - k) - j := by
            rw [hr2, hpp, List.length_drop, List.length_drop]
          congr 1
          refine ih g r2 ?_ ?_ <;> (simp only [List.length_cons] at hl h1 h2 ⊢; omega)
        | none =>
          cases hpr : preParseRest (c :: cs') with
          | nil => rw [tloopF_nilrest f1 _ hpr, tloopF_nilrest g _ hpr]
          | cons c2 r2 =>
            rw [hpr] at hcm
            rw [tloopF_nocomment f1 _ c2 r2 hpr hcm, tloopF_nocomment g _ c2 r2 hpr hcm]
            have hl : r2.length + 1 = (c :: cs').length - k := by
              rw [hpr] at hpp
              have := congrArg List.length hpp
              simpa [List.length_drop] using this
            congr 2
            refine ih g r2 ?_ ?_ <;> (simp only [List.length_cons] at hl h1 h2 ⊢; omega)

theorem tloop_comment (cs r2 : List Char)
    (h : python_style_comment (preParseRest cs) = some r2) :
    tloop cs = cs.take (cs.length - (preParseRest cs).length) ++ tloop r2 := by
  match cs with
  | [] =>
    have hz : preParseRest [] = [] := rfl
    rw [hz] at h
    exact absurd h (by simp [python_style_comment])
  | c :: cs' =>
    show tloopF (cs'.length + 1) (c :: cs') = _
    rw [tloopF_comment cs'.length _ r2 (by simp) h]
    obtain ⟨k, hpp⟩ := preParseRest_drop (c :: cs')
    obtain ⟨j, hj, hr2⟩ := python_style_comment_drop _ _ h
    have hl : r2.length = ((c :: cs').length - k) - j := by
      rw [hr2, hpp, List.length_drop, List.length_drop]
    congr 1
    refine tloopF_congr _ _ _ ?_ le_rfl
    simp only [List.length_cons] at hl ⊢
    omega

theorem tloop_nilrest (cs : List Char) (h : preParseRest cs = []) :
    tloop cs = cs := by
  match cs with
  | [] => rfl
  | c :: cs' =>
    show tloopF (cs'.length + 1) (c :: cs') = _
    exact tloopF_nilrest cs'.length _ h

theorem tloop_nocomment (cs : List Char) (c2 : Char) (r2 : List Char)
    (h : preParseRest cs = c2 :: r2)
    (hcm : python_style_comment (c2 :: r2) = none) :
    tloop cs = cs.take (cs.length - (c2 :: r2).length) ++ c2 :: tloop r2 := by
  match cs with
  | [] =>
    have hz : preParseRest [] = [] := rfl
    rw [hz] at h
    exact absurd h (by simp)
  | c :: cs' =>
    show tloopF (cs'.length + 1) (c :: cs') = _
    rw [tloopF_nocomment cs'.length _ c2 r2 h hcm]
    obtain ⟨k, hpp⟩ := preParseRest_drop (c :: cs')
    have hlen : r2.length + 1 = (c :: cs').length - k := by
      rw [h] at hpp
      have := congrArg List.length hpp
      simpa [List.length_drop] using this
    congr 2
    refine tloopF_congr _ _ _ ?_ le_rfl
    simp only [List.length_cons] at hlen ⊢
    omega

theorem take_append_add (l1 l2 : List Char) (n : Nat) :
    (l1 ++ l2).take (l1.length + n) = l1 ++ l2.take n := by
  induction l1 with
  | nil => simp
  | cons c l1 ih => simpa [List.length_cons, Nat.succ_add] using ih

/-- If a quoted-string literal `lit` is matched at the head of the input (and
its first character is not whitespace), the scan skips it as an ignorable:
the literal is copied verbatim and the transform continues after it. -/
theorem tloop_lit (lit rest : List Char) (c0 : Char) (lit' : List Char)
    (hlit : lit = c0 :: lit') (hw : isWhite c0 = false)
    (hq : any_python_quoted_string (lit ++ rest) = some rest) :
    tloop (lit ++ rest) = lit ++ tloop rest := by
  subst hlit
  have hws : skipWSrest ((c0 :: lit') ++ rest) = (c0 :: lit') ++ rest := by
    show List.dropWhile isWhite (c0 :: (lit' ++ rest)) = _
    rw [List.dropWhile_cons]
    simp [hw]
  have hsi : skipIgnorables ((c0 :: lit') ++ rest) = skipIgnorables rest :=
    skipIgnorables_step _ _ hws hq
  have hpp : preParseRest ((c0 :: lit') ++ rest) = preParseRest rest := by
    unfold preParseRest
    rw [hsi]
  obtain ⟨j, hjd⟩ := preParseRest_drop rest
  have hjlen : (preParseRest rest).length = rest.length - j := by
    rw [hjd, List.length_drop]
  have hlen : ((c0 :: lit') ++ rest).length - (preParseRest rest).length
      = (c0 :: lit').length + (rest.length - (preParseRest rest).length) := by
    simp only [List.length_append]
    omega
  have htake : ((c0 :: lit') ++ rest).take
      (((c0 :: lit') ++ rest).length - (preParseRest rest).length)
      = (c0 :: lit') ++ rest.take (rest.length - (preParseRest rest).length) := by
    rw [hlen, take_append_add]
  cases hcm : python_style_comment (preParseRest rest) with
  | some r2 =>
    have h1 : python_style_comment (preParseRest ((c0 :: lit') ++ rest)) = some r2 := by
      rw [hpp]; exact hcm
    rw [tloop_comment _ _ h1, hpp, htake]
    have hrne : rest ≠ [] := by
      intro he
      subst he
      have : preParseRest ([] : List Char) = [] := rfl
      rw [this] at hcm
      simp [python_style_comment] at hcm
    rw [tloop_comment _ _ hcm, List.append_assoc]
  | none =>
    cases hpr : preParseRest rest with
    | nil =>
      have h1 : preParseRest ((c0 :: lit') ++ rest) = [] := by rw [hpp, hpr]
      rw [tloop_nilrest _ h1, tloop_nilrest _ hpr]
    | cons c2 r2 =>
      rw [hpr] at hcm
      have h1 : preParseRest ((c0 :: lit') ++ rest) = c2 :: r2 := by rw [hpp, hpr]
      rw [tloop_nocomment _ _ _ h1 hcm, tloop_nocomment _ _ _ hpr hcm]
      rw [hpr] at htake
      have hlen2 : ((c0 :: lit') ++ rest).length - (c2 :: r2).length
          = (c0 :: lit').length + (rest.length - (c2 :: r2).length) := by
        rw [hpr] at hjlen
        simp only [List.length_append]
        have hle : (c2 :: r2).length ≤ rest.length := by
          rw [hjlen]
          omega
        omega
      rw [hlen2, take_append_add, List.append_assoc]

theorem dropWhile_append_of_all (p : Char → Bool) (l1 l2 : List Char)
    (h : ∀ c ∈ l1, p c = true) :
    List.dropWhile p (l1 ++ l2) = List.dropWhile p l2 := by
  induction l1 with
  | nil => simp
  | cons c l1 ih =>
    rw [List.cons_append, List.dropWhile_cons]
    simp only [h c (by simp)]
    exact ih (fun c2 hc2 => h c2 (by simp [hc2]))

theorem singleBodyChar_self (q : Char) : singleBodyChar q q = false := by
  simp [singleBodyChar]

theorem matchSingleQuoted_lit (q : Char) (body rest : List Char)
    (hb : ∀ c ∈ body, singleBodyChar q c = true) :
    matchSingleQuoted q (q :: (body ++ q :: rest)) = some rest := by
  have hd : (body ++ q :: rest).dropWhile (singleBodyChar q) = q :: rest := by
    rw [dropWhile_append_of_all _ _ _ hb, List.dropWhile_cons]
    simp [singleBodyChar_self]
  simp only [matchSingleQuoted, hd]
  simp

theorem matchTripleQuoted_ne_first (q c0 : Char) (l : List Char)
    (h : (c0 == q) = false) :
    matchTripleQuoted q (c0 :: l) = none := by
  match l with
  | [] => rfl
  | [c1] => rfl
  | c1 :: c2 :: l' => simp [matchTripleQuoted, h]

theorem matchTripleQuoted_ne_second (q c0 c1 : Char) (l : List Char)
    (h : (c1 == q) = false) :
    matchTripleQuoted q (c0 :: c1 :: l) = none := by
  match l with
  | [] => rfl
  | c2 :: l' => simp [matchTripleQuoted, h]

theorem matchSingleQuoted_ne_first (q c0 : Char) (l : List Char)
    (h : (c0 == q) = false) :
    matchSingleQuoted q (c0 :: l) = none := by
  simp [matchSingleQuoted, h]

theorem any_python_quoted_string_single (b0 : Char) (body' rest : List Char)
    (h0 : (b0 == '"') = false)
    (hball : ∀ c ∈ b0 :: body', singleBodyChar '"' c = true) :
    any_python_quoted_string ('"' :: ((b0 :: body') ++ '"' :: rest)) = some rest := by
  unfold any_python_quoted_string
  rw [show ('"' :: ((b0 :: body') ++ '"' :: rest))
      = '"' :: b0 :: (body' ++ '"' :: rest) by simp]
  rw [matchTripleQuoted_ne_second '"' '"' b0 _ h0]
  rw [matchTripleQuoted_ne_first '\'' '"' _ (by decide)]
  rw [show ('"' : Char) :: b0 :: (body' ++ '"' :: rest)
      = '"' :: ((b0 :: body') ++ '"' :: rest) by simp]
  rw [matchSingleQuoted_lit '"' (b0 :: body') rest hball]

theorem tripleBody_qqq (q : Char) (tail : List Char) :
    tripleBody q (q :: q :: q :: tail) = some tail := by
  simp [tripleBody]

theorem tripleBody_cons_ne (q c : Char) (l : List Char) (hc : (c == q) = false)
    (hl : 2 ≤ l.length) :
    tripleBody q (c :: l) = tripleBody q l := by
  match l, hl with
  | c1 :: c2 :: l', _ => simp [tripleBody, hc]

theorem tripleBody_close (q : Char) (body tail : List Char)
    (hb : ∀ c ∈ body, (c == q) = false) :
    tripleBody q (body ++ q :: q :: q :: tail) = some tail := by
  induction body with
  | nil => simpa using tripleBody_qqq q tail
  | cons c body ih =>
    rw [List.cons_append, tripleBody_cons_ne q c _ (hb c (by simp))
      (by simp only [List.length_append, List.length_cons]; omega)]
    exact ih (fun c2 hc2 => hb c2 (by simp [hc2]))

theorem any_python_quoted_string_triple (body rest : List Char)
    (hb : ∀ c ∈ body, (c == '"') = false) :
    any_python_quoted_string
      ('"' :: '"' :: '"' :: (body ++ '"' :: '"' :: '"' :: rest)) = some rest := by
  unfold any_python_quoted_string
  have h1 : matchTripleQuoted '"' ('"' :: '"' :: '"' :: (body ++ '"' :: '"' :: '"' :: rest))
      = some rest := by
    simp only [matchTripleQuoted]
    rw [if_pos (by simp)]
    exact tripleBody_close '"' body rest hb
  rw [h1]

/-- When the input contains no comment marker, the transform copies it
verbatim: no step of the scan can match the comment expression. -/
theorem tloop_no_hash : ∀ n : Nat, ∀ cs : List Char,
    cs.length ≤ n → '#' ∉ cs → tloop cs = cs := by
  intro n
  induction n with
  | zero =>
    intro cs h1 _
    have he : cs = [] := List.eq_nil_of_length_eq_zero (by omega)
    subst he; rfl
  | succ n ih =>
    intro cs hlen hh
    obtain ⟨k, hpp⟩ := preParseRest_drop cs
    cases hpr : preParseRest cs with
    | nil => exact tloop_nilrest cs hpr
    | cons c r2 =>
      have hdk : cs.drop k = c :: r2 := by rw [← hpp, hpr]
      have hklt : k < cs.length := by
        by_contra hge
        have h0 : cs.drop k = [] := List.drop_eq_nil_of_le (le_of_not_lt hge)
        rw [h0] at hdk; exact absurd hdk (by simp)
      have hcin : c ∈ cs := by
        have h1 : c ∈ cs.drop k := by rw [hdk]; simp
        exact List.drop_subset _ _ h1
      have hcne : (c == '#') = false := by
        rw [beq_eq_false_iff_ne]
        intro he
        exact hh (he ▸ hcin)
      have hcm : python_style_comment (c :: r2) = none := by
        simp [python_style_comment, hcne]
      rw [tloop_nocomment cs c r2 hpr hcm]
      have hr2 : r2 = cs.drop (k + 1) := by
        have h1 : (cs.drop k).drop 1 = r2 := by rw [hdk]; rfl
        rw [List.drop_drop] at h1
        exact h1.symm
      have hnh2 : '#' ∉ r2 := by
        intro hmem
        exact hh (List.drop_subset _ _ (hr2 ▸ hmem))
      have hlen2 : cs.length - k = r2.length + 1 := by
        have := congrArg List.length hdk
        simpa [List.length_drop] using this
      have htl : tloop r2 = r2 := by
        refine ih r2 ?_ hnh2
        omega
      rw [htl]
      have hki : cs.length - (c :: r2).length = k := by
        simp only [List.length_cons]
        omega
      rw [hki, ← hdk, List.take_append_drop]

theorem rfindSlash_eq_zero (cs : List Char) (h : ∀ c ∈ cs, (c == '/') = false) :
    rfindSlash cs = 0 := by
  induction cs with
  | nil => rfl
  | cons c rest ih =>
    have hr : rfindSlash rest = 0 := ih (fun c2 hc2 => h c2 (by simp [hc2]))
    simp [rfindSlash, hr, h c (by simp)]

theorem dirname_no_slash (s : String) (h : ∀ c ∈ s.data, (c == '/') = false) :
    dirname s = "" := by
  unfold dirname
  rw [rfindSlash_eq_zero s.data h]
  simp

theorem string_data_append (a b : String) : (a ++ b).data = a.data ++ b.data := by
  cases a; cases b; rfl

/-- C3 (amended): batch processing is NOT isolated. The `__main__` directory
loop has no exception handling, so the first failing `format_file` call
aborts the whole batch: the files before it (in iteration order) are
processed and written, the failing file and every file after it are not
attempted, and no aggregate error report is produced. -/
theorem main_directory_loop_abort (env : Env) (out_root : Option String)
    (common_len : Nat) (rc : Bool) (sfx : String)
    (pre : List String) (bad : String) (post : List String) (e : FFErr)
    (hpre : ∀ f ∈ pre, ∃ v, format_file env f (derivedOut out_root common_len f)
      rc sfx = .ok v)
    (hbad : format_file env bad (derivedOut out_root common_len bad)
      rc sfx = .error e) :
    main_directory_loop env out_root common_len rc sfx (pre ++ bad :: post)
      = (pre, some (bad, e)) := by
  induction pre with
  | nil =>
    rw [List.nil_append]
    simp only [main_directory_loop, hbad]
  | cons f pre ih =>
    obtain ⟨v, hv⟩ := hpre f (by simp)
    rw [List.cons_append]
    simp only [main_directory_loop, hv]
    rw [ih (fun f2 hf2 => hpre f2 (by simp [hf2]))]

/-! The claims. -/

/-- C1: the claim fails on the code (code bug). `QuotedString('"')` is
constructed without an escape character, so scanning the Python literal
`"a\"#b"` terminates the literal span at the quote following the backslash;
the `#` that the claim requires to sit inside the literal is then matched as
a comment marker in code state and everything from it on is deleted: the
output is `"a\"`, not the unchanged token. -/
theorem escaped_quote_terminates_literal :
    transform_string "\"a\\\"#b\"" = "\"a\\\"" := by decide

/-- C2 (counterexample): scanning `x = "abc` (no closing quote, no newline)
does not fail — the comment-removal step is total and produces output, here
the input unchanged. The code has no `UnterminatedSpanError`. -/
theorem unterminated_literal_scan_succeeds :
    transform_string "x = \"abc" = "x = \"abc" := by decide

/-- C2 (amended): when the input ends inside an unterminated literal, the
comment-removal step does not fail: the unmatched opening quote is treated
as ordinary code text, scanning continues past it, and later comments are
still deleted; invalid syntax is only rejected afterwards by the external
formatter. -/
theorem unterminated_literal_scan_total :
    transform_string "x = \"abc\ny = 2  # c" = "x = \"abc\ny = 2  " := by
  decide

/-- C4: literal transparency. A single-line double-quoted literal whose
(nonempty) body contains no unescaped closing delimiter, no newline and no
carriage return — but may contain `#` and other delimiter characters — is
reproduced unchanged in the output, and scanning continues after it: the
comment marker is never recognized inside the literal. -/
theorem literal_content_preserved (b0 : Char) (body' rest : List Char)
    (hb : ∀ c ∈ b0 :: body', c ≠ '"' ∧ c ≠ '\n' ∧ c ≠ '\r') :
    tloop ('"' :: ((b0 :: body') ++ '"' :: rest))
      = '"' :: ((b0 :: body') ++ '"' :: tloop rest) := by
  have hball : ∀ c ∈ b0 :: body', singleBodyChar '"' c = true := by
    intro c hc
    obtain ⟨h1, h2, h3⟩ := hb c hc
    simp [singleBodyChar, h1, h2, h3]
  have h0 : (b0 == '"') = false := by
    rw [beq_eq_false_iff_ne]
    exact (hb b0 (by simp)).1
  have hq := any_python_quoted_string_single b0 body' rest h0 hball
  have hlr : (('"' :: ((b0 :: body') ++ ['"'])) ++ rest)
      = '"' :: ((b0 :: body') ++ '"' :: rest) := by simp
  have hq2 : any_python_quoted_string
      ((('"' :: ((b0 :: body') ++ ['"'])) ++ rest)) = some rest := by
    rw [hlr]; exact hq
  have ht := tloop_lit _ rest '"' ((b0 :: body') ++ ['"']) rfl (by decide) hq2
  rw [hlr] at ht
  rw [ht]
  simp

/-- C4 witness: the literal `"a#b'c"` (body containing the comment marker
and a single-quote delimiter) followed by ` # tail` is copied verbatim. -/
theorem literal_content_preserved_witness :
    (∀ c ∈ 'a' :: "#b'c".data, c ≠ '"' ∧ c ≠ '\n' ∧ c ≠ '\r')
    ∧ tloop ('"' :: (('a' :: "#b'c".data) ++ '"' :: " # tail".data))
        = '"' :: (('a' :: "#b'c".data) ++ '"' :: tloop " # tail".data) :=
  ⟨by decide, literal_content_preserved 'a' "#b'c".data " # tail".data
    (by decide)⟩

/-- C5: deleting a line comment preserves the surrounding structure:
`code1  # a comment\ncode2` becomes `code1  \ncode2` — the comment text is
removed, the line terminator is kept, the code around it is untouched. -/
theorem comment_deletion_preserves_structure :
    transform_string "code1  # a comment\ncode2" = "code1  \ncode2" := by
  decide

/-- C6: a line comment running to end-of-text without a newline is not an
error: `x = 1  # note` scans successfully to `x = 1  `. -/
theorem trailing_comment_valid :
    transform_string "x = 1  # note" = "x = 1  " := by decide

/-- C7: the comment-removal scan is the identity on every input containing
no comment marker. -/
theorem scan_identity_without_marker (s : String) (h : '#' ∉ s.data) :
    transform_string s = s := by
  unfold transform_string
  rw [tloop_no_hash s.data.length s.data le_rfl h]

/-- C7 witness: a marker-free program text is returned unchanged. -/
theorem scan_identity_without_marker_witness :
    ('#' ∉ ("x = \"a\" + 'b'\n" : String).data)
    ∧ transform_string "x = \"a\" + 'b'\n" = "x = \"a\" + 'b'\n" :=
  ⟨by decide, scan_identity_without_marker _ (by decide)⟩

/-- C8: longest-match delimiter precedence. Whenever the triple-quote
delimiter matches at a position, `any_python_quoted_string` returns that
match (the `MatchFirst` tries `QuotedString('"""')` before
`QuotedString('"')`, which would also match there as an empty single-quoted
literal); consequently text opening with a triple quote is scanned as one
triple-quoted literal — copied verbatim even when its body contains `#` —
and never as two adjacent single-quote literals. -/
theorem triple_quote_precedence :
    (∀ cs r : List Char, matchTripleQuoted '"' cs = some r →
        any_python_quoted_string cs = some r)
    ∧ ∀ body rest : List Char, (∀ c ∈ body, c ≠ '"') →
        tloop ('"' :: '"' :: '"' :: (body ++ '"' :: '"' :: '"' :: rest))
          = '"' :: '"' :: '"' :: (body ++ '"' :: '"' :: '"' :: tloop rest) := by
  constructor
  · intro cs r h
    unfold any_python_quoted_string
    rw [h]
  · intro body rest hb
    have hb2 : ∀ c ∈ body, (c == '"') = false := by
      intro c hc
      rw [beq_eq_false_iff_ne]
      exact hb c hc
    have hq := any_python_quoted_string_triple body rest hb2
    have hlr : (('"' :: '"' :: '"' :: (body ++ ['"', '"', '"'])) ++ rest)
        = '"' :: '"' :: '"' :: (body ++ '"' :: '"' :: '"' :: rest) := by simp
    have hq2 : any_python_quoted_string
        ((('"' :: '"' :: '"' :: (body ++ ['"', '"', '"'])) ++ rest))
        = some rest := by
      rw [hlr]; exact hq
    have ht := tloop_lit _ rest '"' ('"' :: '"' :: (body ++ ['"', '"', '"'])) rfl
      (by decide) hq2
    rw [hlr] at ht
    rw [ht]
    simp

/-- C8 witness: `"""x # y"""` followed by `!` is matched as one triple-quoted
literal by the `MatchFirst`, closing at the final triple quote. -/
theorem triple_quote_precedence_witness :
    matchTripleQuoted '"' "\"\"\"x # y\"\"\"!".data = some ['!']
    ∧ any_python_quoted_string "\"\"\"x # y\"\"\"!".data = some ['!'] :=
  ⟨by decide, triple_quote_precedence.1 _ _ (by decide)⟩

/-- C9: `format_file` raises its `ValueError` exactly when the input path is
not an existing file or does not end in `.py`; the check sits before the
read, the scan and any write, and for an existing `.py` input this error is
never the result. -/
theorem format_file_invalid_input_iff (env : Env) (in_file : String)
    (out_file : Option String) (rc : Bool) (sfx : String) :
    format_file env in_file out_file rc sfx = .error .invalidInput
      ↔ ¬(env.isFile in_file = true ∧ endsWithPy in_file = true) := by
  unfold format_file
  by_cases h1 : env.isFile in_file = true
  · by_cases h2 : endsWithPy in_file = true
    · rw [if_neg (by simp [h1, h2])]
      simp only [h1, h2, and_self, not_true_eq_false, iff_false]
      cases hf : env.fmt (if rc then transform_string (env.content in_file)
          else env.content in_file) with
      | none => simp [hf]
      | some v =>
        obtain ⟨code2, ch⟩ := v
        simp only [hf]
        split <;> simp
    · have h2f : endsWithPy in_file = false := by
        simpa using h2
      simp [h1, h2f]
  · have h1f : env.isFile in_file = false := by
      simpa using h1
    simp [h1f]

/-- C10: when `out_file` is not given and the input filename has no
directory component (nor has the suffix), the derived output path
`in_file[:-3] + out_file_suffix + ".py"` has no directory component either,
so `os.path.dirname` yields `""` and `os.makedirs("")` raises: the call
fails before writing any output, even though the input is a valid existing
`.py` file and the formatter accepted its contents. -/
theorem derived_out_cwd_fails (env : Env) (in_file : String) (rc : Bool)
    (sfx : String) (code2 : String) (ch : Bool)
    (hfile : env.isFile in_file = true)
    (hpy : endsWithPy in_file = true)
    (hno : ∀ c ∈ in_file.data, (c == '/') = false)
    (hsfx : ∀ c ∈ sfx.data, (c == '/') = false)
    (hfmt : env.fmt (if rc then transform_string (env.content in_file)
      else env.content in_file) = some (code2, ch)) :
    format_file env in_file none rc sfx = .error .osError := by
  unfold format_file
  simp only [hfile, hpy, Bool.not_true, Bool.or_self, Bool.false_or, if_false,
    hfmt]
  have hdir : dirname ((⟨in_file.data.take (in_file.data.length - 3)⟩ : String)
      ++ sfx ++ ".py") = "" := by
    apply dirname_no_slash
    intro c hc
    rw [string_data_append, string_data_append] at hc
    rcases List.mem_append.mp hc with hc1 | hc2
    · rcases List.mem_append.mp hc1 with hc3 | hc4
      · exact hno c (List.take_subset _ _ hc3)
      · exact hsfx c hc4
    · rw [beq_eq_false_iff_ne]
      intro he
      subst he
      simp at hc2
  rw [hdir]
  rfl

/-- C10 witness: `format_file` on the bare filename `a.py` in an
all-accepting environment fails with the makedirs error. -/
theorem derived_out_cwd_fails_witness :
    envOk.isFile "a.py" = true ∧ endsWithPy "a.py" = true
    ∧ format_file envOk "a.py" none false "_formatted" = .error .osError :=
  ⟨rfl, by decide, derived_out_cwd_fails envOk "a.py" false "_formatted" ""
    false rfl (by decide) (by decide) (by decide) rfl⟩

/-- C3 (counterexample): a three-file batch whose middle file makes the
external formatter raise: the loop output shows only the first file was
processed; the third file — an "other file" of the batch — was never
attempted, contradicting batch isolation. -/
theorem batch_not_isolated :
    main_directory_loop envB (some "o") 2 false "_formatted"
        ["d/a.py", "d/b.py", "d/c.py"]
      = (["d/a.py"], some ("d/b.py", FFErr.formatError))
    ∧ "d/c.py" ∉ (main_directory_loop envB (some "o") 2 false "_formatted"
        ["d/a.py", "d/b.py", "d/c.py"]).1 := by
  constructor
  · decide
  · decide

/-- C3 witness: in the concrete three-file batch, the loop processes exactly
the files before the failing one and stops there. -/
theorem batch_abort_witness :
    main_directory_loop envB (some "o") 2 false "_formatted"
        (["d/a.py"] ++ "d/b.py" :: ["d/c.py"])
      = (["d/a.py"], some ("d/b.py", FFErr.formatError)) :=
  main_directory_loop_abort envB (some "o") 2 false "_formatted"
    ["d/a.py"] "d/b.py" ["d/c.py"] FFErr.formatError
    (by
      intro f hf
      have hf2 : f = "d/a.py" := by simpa using hf
      subst hf2
      exact ⟨("o/a.py", "ok", true), rfl⟩)
    rfl
